import Mathlib

/-!
Verification of the Polaris backend role-recommendation core.

Shallow embedding of `src/services/role_database.py`,
`src/services/role_recommender.py` and the fuzzy-resolution layer of
`src/routes.py`.

Conventions of the embedding:

* Python dicts keyed by strings are association lists built with
  `dinsert`, which reproduces Python's overwrite-in-place semantics
  (an existing key keeps its position and gets the new value; a new key
  is appended).  Lookup is `dictGet`.
* Python's Euclidean distance `sqrt(Σ (a-b)^2)` is represented by the
  squared distance `Σ (a-b)^2 : Int`.  `sqrt` is strictly monotone and
  injective on nonnegative reals, so the order of distances, equality of
  distances, and hence every sort, tie, and comparison in the code is
  exactly preserved by this representation.
* Python's stable `list.sort` is modelled by `List.insertionSort`,
  which is stable for the total preorder used here.
* `random.sample` and `random.shuffle` are modelled by a `RandomOracle`
  whose behaviour is constrained by `RandomOracle.Valid`:
  `sample pool k` with `k ≤ pool.length` returns some `k`-element
  sub-permutation of `pool`, and `shuffle` returns a permutation.
  `random.sample`'s ValueError when the sample size exceeds the
  population is modelled by `pySample` returning `Except.error`.
-/

/-- A 4-dimensional work-style metric vector
(technical, creative, business, customer). -/
structure Metrics where
  technical : Int
  creative : Int
  business : Int
  customer : Int
deriving DecidableEq

/-- A catalog role record: name plus its metric vector.  This is the
post-`.get(field, 5)` view of the JSON role objects: every metric access
in the recommender and the overlap computation goes through
`role.get(key, 5)`, so a record is observationally a total 4-vector. -/
structure Role where
  name : String
  technical : Int
  creative : Int
  business : Int
  customer : Int
deriving DecidableEq

/-- The metric vector of a role, as read by
`(role.get('technical',5), role.get('creative',5), ...)`. -/
def Role.metricsOf (r : Role) : Metrics :=
  ⟨r.technical, r.creative, r.business, r.customer⟩

/-- `calculate_distance` from `role_recommender.py` (and the inline
distance in `_calculate_overlaps`): squared Euclidean distance in the 4D
metric space.  Python returns the square root of this value. -/
def calculate_distance (m1 m2 : Metrics) : Int :=
  (m1.technical - m2.technical) ^ 2 + (m1.creative - m2.creative) ^ 2 +
    (m1.business - m2.business) ^ 2 + (m1.customer - m2.customer) ^ 2

/-- A `{'name': ..., 'distance': ...}` entry of a `close` or `oddball`
pool. -/
structure NameDist where
  name : String
  distance : Int
deriving DecidableEq

/-- The comparison key of `distances.sort(key=lambda x: x[1])`. -/
def ndLE (a b : NameDist) : Prop := a.distance ≤ b.distance

instance : DecidableRel ndLE := fun a b => inferInstanceAs (Decidable (a.distance ≤ b.distance))

instance : IsTotal NameDist ndLE := ⟨fun a b => Int.le_total a.distance b.distance⟩

instance : IsTrans NameDist ndLE := ⟨fun _ _ _ h1 h2 => le_trans h1 h2⟩

/-- A pre-computed overlap entry `{close: [...], oddball: [...]}`. -/
structure OverlapEntry where
  close : List NameDist
  oddball : List NameDist
deriving DecidableEq

/-- `str.lower()`: lower-case every character (kernel-computable
formulation over the character list). -/
def toLowerStr (s : String) : String := ⟨s.data.map Char.toLower⟩

/-- `str.strip()`: drop whitespace from both ends (kernel-computable
formulation over the character list). -/
def trimStr (s : String) : String :=
  ⟨((s.data.dropWhile Char.isWhitespace).reverse.dropWhile Char.isWhitespace).reverse⟩

/-- `role_name.lower().strip()`: the normalization applied to role names
everywhere they are compared. -/
def normalizeName (s : String) : String := trimStr (toLowerStr s)

/-- Python dict assignment `m[k] = v`: an existing key keeps its
position and receives the new value, a fresh key is appended. -/
def dinsert {β : Type} (m : List (String × β)) (k : String) (v : β) : List (String × β) :=
  if m.any (fun p => p.1 == k) then
    m.map (fun p => if p.1 == k then (k, v) else p)
  else
    m ++ [(k, v)]

/-- Python dict lookup `m.get(k)` / `m[k]` (as an `Option`). -/
def dictGet {β : Type} (m : List (String × β)) (k : String) : Option β :=
  (m.find? (fun p => p.1 == k)).map (fun p => p.2)

/-- `RoleDatabase._load_normalized`'s `role_map` construction, applied
to an already-loaded role list: maps normalized names to display-cased
names, later records overwriting earlier ones. -/
def rolesNormalizedDict (roles : List Role) : List (String × String) :=
  roles.foldl (fun acc r => dinsert acc (normalizeName r.name) r.name) []

/-- `self.role_db.roles_normalized[key]` as an `Option`. -/
def lookupNormalized (roles : List Role) (key : String) : Option String :=
  dictGet (rolesNormalizedDict roles) key

/-- Number of close matches pre-calculated per role
(`RoleDatabase.CLOSE_POOL_SIZE`). -/
def CLOSE_POOL_SIZE : Nat := 15

/-- Number of diverse matches pre-calculated per role
(`RoleDatabase.ODDBALL_POOL_SIZE`). -/
def ODDBALL_POOL_SIZE : Nat := 5

/-- `int(ODDBALL_POOL_SIZE * 1.6)` = 8: size of the far-tail window the
oddball pool is cut from. -/
def ODDBALL_POOL_WINDOW : Nat := 8

/-- The `distances` list built for one role inside
`_calculate_overlaps`: every other record (excluded by name equality)
paired with its distance, in catalog iteration order. -/
def distancesFor (roles : List Role) (r : Role) : List NameDist :=
  (roles.filter (fun other => other.name != r.name)).map
    (fun other => ⟨other.name, calculate_distance r.metricsOf other.metricsOf⟩)

/-- The body of the `_calculate_overlaps` loop for one role: sort the
distances ascending (stable), take the first 15 as `close`, and of the
last 8 (the farthest) take the first 5 as `oddball`. -/
def calcOverlapEntry (roles : List Role) (r : Role) : OverlapEntry :=
  let sorted := List.insertionSort ndLE (distancesFor roles r)
  let close := sorted.take CLOSE_POOL_SIZE
  let oddballCandidates := sorted.drop (sorted.length - ODDBALL_POOL_WINDOW)
  ⟨close, oddballCandidates.take ODDBALL_POOL_SIZE⟩

/-- `RoleDatabase._calculate_overlaps`: the dict mapping each role name
to its overlap entry (later same-named records overwrite earlier
ones). -/
def calculate_overlaps (roles : List Role) : List (String × OverlapEntry) :=
  roles.foldl (fun acc r => dinsert acc r.name (calcOverlapEntry roles r)) []

/-- `self.role_db.overlaps.get(name)`. -/
def overlapsGet (roles : List Role) (name : String) : Option OverlapEntry :=
  dictGet (calculate_overlaps roles) name

/-- `RoleRecommender.TOTAL_MAP_ROLES`. -/
def TOTAL_MAP_ROLES : Nat := 27

/-- `RoleRecommender.CLOSE_MATCHES_COUNT`. -/
def CLOSE_MATCHES_COUNT : Nat := 20

/-- `RoleRecommender.ODDBALL_COUNT`. -/
def ODDBALL_COUNT : Nat := 7

/-- An output role record: a copy of a catalog record, possibly
augmented with a `distance` key.  `distance = none` models a dict
without the `'distance'` key (the unpersonalized path returns the
catalog dicts unaugmented). -/
structure RoleOut where
  name : String
  technical : Int
  creative : Int
  business : Int
  customer : Int
  distance : Option Int
deriving DecidableEq

/-- View of a catalog record as returned on the unpersonalized path
(no `'distance'` key). -/
def Role.toOut (r : Role) : RoleOut :=
  ⟨r.name, r.technical, r.creative, r.business, r.customer, none⟩

/-- The dict returned by `get_personalized_roles`.  `current_role =
none` and `edge_case = false` model the absence of those keys. -/
structure RecResult where
  roles : List RoleOut
  personalized : Bool
  current_role : Option String
  edge_case : Bool
deriving DecidableEq

/-- An abstract source of randomness standing for Python's global
`random` module: `sample` picks elements without replacement, `shuffle`
permutes in place.  Which elements are picked is unconstrained here;
`RandomOracle.Valid` states the library's contract. -/
structure RandomOracle where
  sample : (α : Type) → List α → Nat → List α
  shuffle : (α : Type) → List α → List α

/-- The contract of `random.sample` (for sample sizes within the
population) and `random.shuffle`: a sample of size `k ≤ |pool|` is a
`k`-element permutation of a sublist of the pool, and a shuffle is a
permutation. -/
def RandomOracle.Valid (R : RandomOracle) : Prop :=
  (∀ (α : Type) (l : List α) (k : Nat), k ≤ l.length →
      (R.sample α l k).length = k ∧ List.Subperm (R.sample α l k) l) ∧
  (∀ (α : Type) (l : List α), List.Perm (R.shuffle α l) l)

/-- `random.sample(pool, k)` including its failure mode: raises
`ValueError` when `k` exceeds the population size. -/
def pySample (R : RandomOracle) (α : Type) (pool : List α) (k : Nat) :
    Except String (List α) :=
  if k ≤ pool.length then Except.ok (R.sample α pool k)
  else Except.error "Sample larger than population or is negative"

/-- The dict-entry ➜ full-role-object conversion loop shared by
`_get_roles_from_database` and `_get_roles_from_metrics`: for each
selected `{'name', 'distance'}` entry, look the first catalog record
with that name up; if found, append a copy augmented with the stored
distance, else skip. -/
def rolesToShow (roles : List Role) (selected : List NameDist) : List RoleOut :=
  selected.filterMap (fun sel =>
    (roles.find? (fun r => r.name == sel.name)).map (fun robj =>
      ⟨robj.name, robj.technical, robj.creative, robj.business, robj.customer,
        some sel.distance⟩))

/-- `RoleRecommender._get_roles_from_database`. -/
def getRolesFromDatabase (R : RandomOracle) (roles : List Role)
    (normalizedRole : String) (count : Nat) : Except String RecResult := do
  match lookupNormalized roles normalizedRole with
  | none => Except.error "KeyError"
  | some canonicalRole =>
    match overlapsGet roles canonicalRole with
    | none => Except.ok ⟨[], false, none, false⟩
    | some ov =>
      let close := ov.close
      let oddball := ov.oddball
      let selectedClose ← pySample R NameDist close (min CLOSE_MATCHES_COUNT close.length)
      let selectedOddball ← pySample R NameDist oddball (min ODDBALL_COUNT oddball.length)
      let selected := R.shuffle NameDist (selectedClose ++ selectedOddball)
      Except.ok ⟨rolesToShow roles (selected.take count), true, some canonicalRole, false⟩

/-- A metrics dict supplied by the caller, as an association list
(request-JSON dicts have unique keys; `dictGet` models `.get`). -/
def MetricsInput : Type := List (String × Int)

/-- `metrics.get(key, 5)` for the four metric keys, as read in
`_get_roles_from_metrics`. -/
def metricsTuple (m : MetricsInput) : Metrics :=
  ⟨(dictGet m "technical").getD 5, (dictGet m "creative").getD 5,
    (dictGet m "business").getD 5, (dictGet m "customer").getD 5⟩

/-- `RoleRecommender.calculate_overlaps_on_fly`: distances from the
given vector to every catalog role (no exclusion), stable ascending
sort; `close` is the first `close_count` (default 20) entries, and of
the last 10 entries the first `oddball_count` (default 7) form
`oddball`. -/
def calculate_overlaps_on_fly (roles : List Role) (rm : Metrics)
    (closeCount? oddballCount? : Option Nat) : OverlapEntry :=
  let closeCount := closeCount?.getD CLOSE_MATCHES_COUNT
  let oddballCount := oddballCount?.getD ODDBALL_COUNT
  let distances := roles.map
    (fun other => (⟨other.name, calculate_distance rm other.metricsOf⟩ : NameDist))
  let sorted := List.insertionSort ndLE distances
  let close := sorted.take closeCount
  let oddballCandidates := sorted.drop (sorted.length - 10)
  ⟨close, oddballCandidates.take oddballCount⟩

/-- `RoleRecommender._get_roles_from_metrics`. -/
def getRolesFromMetrics (R : RandomOracle) (roles : List Role)
    (metrics : MetricsInput) (currentRole : String) (count : Nat) :
    Except String RecResult := do
  let ov := calculate_overlaps_on_fly roles (metricsTuple metrics) none none
  let close := ov.close
  let oddball := ov.oddball
  let selectedClose ← pySample R NameDist close (min CLOSE_MATCHES_COUNT close.length)
  let selectedOddball ← pySample R NameDist oddball (min ODDBALL_COUNT oddball.length)
  let selected := R.shuffle NameDist (selectedClose ++ selectedOddball)
  Except.ok ⟨rolesToShow roles (selected.take count), true, some currentRole, true⟩

/-- The duplicated `random.sample(all_roles, min(count, len(all_roles)))`
fallback block of `get_personalized_roles`. -/
def unpersonalizedResult (R : RandomOracle) (roles : List Role) (count : Nat) :
    Except String RecResult := do
  let sampled ← pySample R Role roles (min count roles.length)
  Except.ok ⟨sampled.map Role.toOut, false, none, false⟩

/-- Python truthiness of the `current_role` argument (`None` and the
empty string are falsy). -/
def truthyStr : Option String → Bool
  | none => false
  | some s => !(s == "")

/-- Python truthiness of the `metrics` argument (`None` and the empty
dict are falsy). -/
def truthyMetrics : Option MetricsInput → Bool
  | none => false
  | some m => !m.isEmpty

/-- `RoleRecommender.get_personalized_roles`: the top-level decision
logic. -/
def get_personalized_roles (R : RandomOracle) (roles : List Role)
    (currentRole : Option String) (metrics : Option MetricsInput) (count : Nat) :
    Except String RecResult :=
  if truthyStr currentRole then
    let s := currentRole.getD ""
    let normalized := normalizeName s
    if (lookupNormalized roles normalized).isSome then
      getRolesFromDatabase R roles normalized count
    else if truthyMetrics metrics then
      getRolesFromMetrics R roles (metrics.getD []) s count
    else
      unpersonalizedResult R roles count
  else
    unpersonalizedResult R roles count

/-- A role object as it sits in the JSON file: any of the keys may be
absent (`role_obj['name']` raises `KeyError` when `'name'` is). -/
structure RawRole where
  name : Option String
  technical : Option Int
  creative : Option Int
  business : Option Int
  customer : Option Int
deriving DecidableEq

/-- A successfully parsed catalog document: `data.get('roles', [])`
tolerates a missing `roles` key. -/
structure JsonDoc where
  roles : Option (List RawRole)
deriving DecidableEq

/-- The state of the catalog data source as seen by the loaders:
the file may be absent, present but not valid JSON, or parsed. -/
inductive DataSource where
  | missing
  | unparsable
  | parsed (doc : JsonDoc)
deriving DecidableEq

/-- The exceptions the loaders can let escape: `json.JSONDecodeError`
from `json.load`, `KeyError` from `role_obj['name']`. -/
inductive LoadError where
  | jsonDecodeError
  | keyError
deriving DecidableEq

/-- `RoleDatabase._load_normalized`.  The `Bool` in the result records
whether the "not found" warning was printed.  A missing file yields an
empty map plus the warning; `json.load` on an unparsable file raises,
and a role object without `'name'` raises — neither is caught. -/
def load_normalized (src : DataSource) : Except LoadError (List (String × String) × Bool) :=
  match src with
  | DataSource.missing => Except.ok ([], true)
  | DataSource.unparsable => Except.error LoadError.jsonDecodeError
  | DataSource.parsed doc =>
    (((doc.roles.getD []).foldlM (fun (acc : List (String × String)) (ro : RawRole) =>
        match ro.name with
        | none => Except.error LoadError.keyError
        | some n => Except.ok (dinsert acc (normalizeName n) n)) [])).map
      (fun m => (m, false))

/-- `RoleDatabase._load_all_roles`: a missing file yields `[]` (with no
warning); an unparsable file raises from `json.load`. -/
def load_all_roles (src : DataSource) : Except LoadError (List RawRole) :=
  match src with
  | DataSource.missing => Except.ok []
  | DataSource.unparsable => Except.error LoadError.jsonDecodeError
  | DataSource.parsed doc => Except.ok (doc.roles.getD [])

/-- One row (one value of `i`) of the inner dynamic program of
`difflib.SequenceMatcher.find_longest_match`: iterate over the
positions `j ∈ [blo, bhi)` with `b[j] == a[i]` in ascending order,
extend runs via `k = j2len.get(j-1, 0) + 1`, and update the best block
only on strict improvement (so the first longest block in scan order is
kept).  `j2len` is total with default `0`, matching `dict.get(·, 0)`. -/
def flmRow (a b : List Char) (blo bhi i : Nat) (j2len : Int → Nat)
    (best : Nat × Nat × Nat) : (Int → Nat) × (Nat × Nat × Nat) :=
  (List.range' blo (bhi - blo)).foldl
    (fun (st : (Int → Nat) × (Nat × Nat × Nat)) j =>
      if b.getD j (Char.ofNat 0) = a.getD i (Char.ofNat 1) then
        let k := j2len ((j : Int) - 1) + 1
        let newj2len := fun x => if x = (j : Int) then k else st.1 x
        let newBest := if k > st.2.2.2 then (i + 1 - k, j + 1 - k, k) else st.2
        (newj2len, newBest)
      else st)
    ((fun _ => 0), best)

/-- `SequenceMatcher.find_longest_match(alo, ahi, blo, bhi)` with no
junk and autojunk inapplicable (all strings here are far below 200
characters): returns `(besti, bestj, bestsize)`.  The trailing
junk-extension `while` loops of the original are no-ops when the junk
sets are empty — any extendable block would already have produced a
strictly longer run in the dynamic program — so they are omitted. -/
def find_longest_match (a b : List Char) (alo ahi blo bhi : Nat) : Nat × Nat × Nat :=
  ((List.range' alo (ahi - alo)).foldl
    (fun (st : (Int → Nat) × (Nat × Nat × Nat)) i => flmRow a b blo bhi i st.1 st.2)
    ((fun _ => 0), (alo, blo, 0))).2

/-- The total number of matched characters accumulated by
`SequenceMatcher.get_matching_blocks`: recursively split around the
longest matching block.  Merging of adjacent blocks in the original
does not change the total.  `fuel` dominates the recursion depth (each
recursive call strictly shrinks the `a`-window). -/
def matchSizeFuel (a b : List Char) : Nat → Nat → Nat → Nat → Nat → Nat
  | 0, _, _, _, _ => 0
  | fuel + 1, alo, ahi, blo, bhi =>
    let r := find_longest_match a b alo ahi blo bhi
    if r.2.2 = 0 then 0
    else
      r.2.2 + matchSizeFuel a b fuel alo r.1 blo r.2.1 +
        matchSizeFuel a b fuel (r.1 + r.2.2) ahi (r.2.1 + r.2.2) bhi

/-- `sum(block.size for block in SequenceMatcher(a, b).get_matching_blocks())`. -/
def pyMatches (a b : List Char) : Nat :=
  matchSizeFuel a b (a.length + 1) 0 a.length 0 b.length

/-- `SequenceMatcher.ratio()` as an exact fraction, numerator first:
`(2 * matches, len(a) + len(b))`.  The fraction is kept unreduced so
that every comparison is a kernel-computable cross-multiplication; for
the short strings compared here the float comparisons performed by
`get_close_matches` agree exactly with the exact rational
comparisons. -/
def simFrac (a b : List Char) : Nat × Nat :=
  (2 * pyMatches a b, a.length + b.length)

/-- `p ≤ q` on exact fractions, by cross-multiplication. -/
def fracLE (p q : Nat × Nat) : Prop := p.1 * q.2 ≤ q.1 * p.2

/-- `p < q` on exact fractions, by cross-multiplication. -/
def fracLT (p q : Nat × Nat) : Prop := p.1 * q.2 < q.1 * p.2

/-- `p = q` as fractions, by cross-multiplication. -/
def fracEQ (p q : Nat × Nat) : Prop := p.1 * q.2 = q.1 * p.2

instance : DecidableRel fracLE := fun p q =>
  inferInstanceAs (Decidable (p.1 * q.2 ≤ q.1 * p.2))

instance : DecidableRel fracLT := fun p q =>
  inferInstanceAs (Decidable (p.1 * q.2 < q.1 * p.2))

instance : DecidableRel fracEQ := fun p q =>
  inferInstanceAs (Decidable (p.1 * q.2 = q.1 * p.2))

/-- The similarity cutoff `0.85` of the fuzzy layer, as the exact
fraction `17/20`. -/
def FUZZY_CUTOFF : Nat × Nat := (17, 20)

/-- Strict comparison of `(score, candidate)` pairs as performed by
`heapq.nlargest` on the tuples built in `get_close_matches` (score
first, then the candidate string, compared code-point-wise). -/
def scoreLT (p q : (Nat × Nat) × String) : Prop :=
  fracLT p.1 q.1 ∨ (fracEQ p.1 q.1 ∧ p.2 < q.2)

instance : DecidableRel scoreLT := fun p q =>
  inferInstanceAs (Decidable (fracLT p.1 q.1 ∨ (fracEQ p.1 q.1 ∧ p.2 < q.2)))

/-- One comparison step of the maximum scan: keep the accumulator on
ties, replace it on strict tuple-order improvement. -/
def nlStep (acc : Option ((Nat × Nat) × String)) (p : (Nat × Nat) × String) :
    Option ((Nat × Nat) × String) :=
  match acc with
  | none => some p
  | some q => if scoreLT q p then some p else some q

/-- `heapq.nlargest(1, result)` (then head): the maximum under the
tuple order, the earliest-listed element winning exact ties. -/
def nlargest1 (l : List ((Nat × Nat) × String)) : Option ((Nat × Nat) × String) :=
  l.foldl nlStep none

/-- The per-candidate filter of `get_close_matches`: keep `(ratio, x)`
when the ratio clears the cutoff. -/
def fuzzyScore (cutoff : Nat × Nat) (word x : String) : Option ((Nat × Nat) × String) :=
  let r := simFrac x.data word.data
  if fracLE cutoff r then some (r, x) else none

/-- `difflib.get_close_matches(word, possibilities, n=1, cutoff)`,
returning the head of the result list if any.  The
`real_quick_ratio`/`quick_ratio` prefilters of the original are upper
bounds on `ratio` and only skip candidates that fail the cutoff anyway,
so they are semantically absorbed into the single `ratio` test. -/
def get_close_matches1 (cutoff : Nat × Nat) (word : String) (possibilities : List String) :
    Option String :=
  (nlargest1 (possibilities.filterMap (fuzzyScore cutoff word))).map (fun p => p.2)

/-- Layer 2 of `routes.infer_industry`: fuzzy-match the normalized
input against the normalized catalog keys at cutoff `0.85` and map the
best match back to the canonical display-cased name. -/
def resolveFuzzy (roles : List Role) (raw : String) : Option String :=
  (get_close_matches1 FUZZY_CUTOFF (normalizeName raw)
      ((rolesNormalizedDict roles).map (fun p => p.1))).bind
    (fun key => dictGet (rolesNormalizedDict roles) key)

/-! ### Helper lemmas: dict semantics -/

theorem mem_dinsert {β : Type} {m : List (String × β)} {k : String} {v : β}
    {p : String × β} (h : p ∈ dinsert m k v) : p ∈ m ∨ p = (k, v) := by
  unfold dinsert at h
  split at h
  · rcases List.mem_map.1 h with ⟨q, hq, hqe⟩
    by_cases hk : q.1 == k
    · right
      rw [if_pos hk] at hqe
      exact hqe.symm
    · left
      rw [if_neg hk] at hqe
      exact hqe ▸ hq
  · rcases List.mem_append.1 h with h1 | h1
    · exact Or.inl h1
    · exact Or.inr (List.mem_singleton.1 h1)

theorem dictGet_dinsert_self {β : Type} (m : List (String × β)) (k : String) (v : β) :
    dictGet (dinsert m k v) k = some v := by
  unfold dictGet dinsert
  split
  · next hany =>
    rcases List.any_eq_true.1 hany with ⟨p, hp, hpk⟩
    induction m with
    | nil => cases hp
    | cons q m ih =>
      by_cases hq : q.1 == k
      · simp [List.find?, hq]
      · rw [List.map_cons, if_neg hq, List.find?]
        simp only [hq]
        rcases List.mem_cons.1 hp with rfl | hp'
        · exact absurd hpk hq
        · exact ih (List.any_eq_true.2 ⟨p, hp', hpk⟩) hp'
  · next hany =>
    have hnone : m.find? (fun p => p.1 == k) = none := by
      rw [List.find?_eq_none]
      intro p hp hpk
      exact hany (List.any_eq_true.2 ⟨p, hp, hpk⟩)
    rw [List.find?_append, hnone]
    simp [List.find?]

theorem dictGet_dinsert_ne {β : Type} (m : List (String × β)) (k k' : String) (v : β)
    (hne : k' ≠ k) : dictGet (dinsert m k v) k' = dictGet m k' := by
  have hkv : (((k, v) : String × β).1 == k') = false := by
    simp only [beq_eq_false_iff_ne]
    exact fun h => hne h.symm
  unfold dictGet dinsert
  split
  · next hany =>
    clear hany
    induction m with
    | nil => rfl
    | cons q m ih =>
      rw [List.map_cons]
      by_cases hq : q.1 == k
      · have hq' : (q.1 == k') = false := by
          simp only [beq_eq_false_iff_ne]
          intro h
          exact hne (h.symm.trans (eq_of_beq hq))
        rw [if_pos hq]
        simp only [List.find?, hkv, hq']
        exact ih
      · rw [if_neg hq]
        by_cases hq' : q.1 == k'
        · simp [List.find?, hq']
        · simp only [List.find?, hq']
          exact ih
  · rw [List.find?_append]
    by_cases h : m.find? (fun p => p.1 == k') |>.isSome
    · rcases Option.isSome_iff_exists.1 h with ⟨p, hp⟩
      simp [hp]
    · rw [Option.not_isSome_iff_eq_none] at h
      rw [h]
      simp only [Option.none_or]
      simp [List.find?, hkv]

theorem mem_foldl_dinsert {α β : Type} (f : α → String) (g : α → β) :
    ∀ (l : List α) (acc : List (String × β)) (p : String × β),
      p ∈ l.foldl (fun acc r => dinsert acc (f r) (g r)) acc →
      p ∈ acc ∨ ∃ r ∈ l, p = (f r, g r)
  | [], _, _, h => Or.inl h
  | r :: l, acc, p, h => by
    rcases mem_foldl_dinsert f g l _ p h with h1 | h1
    · rcases mem_dinsert h1 with h2 | h2
      · exact Or.inl h2
      · exact Or.inr ⟨r, List.mem_cons_self r l, h2⟩
    · rcases h1 with ⟨r', hr', he⟩
      exact Or.inr ⟨r', List.mem_cons_of_mem r hr', he⟩

theorem dictGet_foldl_isSome {α β : Type} (f : α → String) (g : α → β) :
    ∀ (l : List α) (acc : List (String × β)) (k : String),
      (dictGet acc k).isSome = true →
      (dictGet (l.foldl (fun acc r => dinsert acc (f r) (g r)) acc) k).isSome = true
  | [], _, _, h => h
  | r :: l, acc, k, h => by
    apply dictGet_foldl_isSome f g l
    by_cases hk : k = f r
    · subst hk
      rw [dictGet_dinsert_self]
      rfl
    · rw [dictGet_dinsert_ne _ _ _ _ hk]
      exact h

theorem dictGet_foldl_isSome_of_mem {α β : Type} (f : α → String) (g : α → β)
    {l : List α} {r : α} (hr : r ∈ l) (acc : List (String × β)) :
    (dictGet (l.foldl (fun acc r => dinsert acc (f r) (g r)) acc) (f r)).isSome = true := by
  induction l generalizing acc with
  | nil => cases hr
  | cons x l ih =>
    rcases List.mem_cons.1 hr with rfl | hr'
    · exact dictGet_foldl_isSome f g l _ _ (by rw [dictGet_dinsert_self]; rfl)
    · exact ih hr' _

theorem dictGet_some_mem {β : Type} {m : List (String × β)} {k : String} {v : β}
    (h : dictGet m k = some v) : (k, v) ∈ m := by
  unfold dictGet at h
  rcases Option.map_eq_some'.1 h with ⟨p, hp, hpv⟩
  have hmem := List.mem_of_find?_eq_some hp
  have hpk := List.find?_some hp
  cases p with
  | mk a b =>
    have : a = k := eq_of_beq hpk
    subst this
    subst hpv
    exact hmem

theorem dictGet_foldl_some {α β : Type} (f : α → String) (g : α → β)
    {l : List α} {k : String} {v : β}
    (h : dictGet (l.foldl (fun acc r => dinsert acc (f r) (g r)) []) k = some v) :
    ∃ r ∈ l, f r = k ∧ g r = v := by
  rcases mem_foldl_dinsert f g l [] _ (dictGet_some_mem h) with h1 | h1
  · cases h1
  · rcases h1 with ⟨r, hr, he⟩
    rw [Prod.mk.injEq] at he
    exact ⟨r, hr, he.1.symm, he.2.symm⟩

theorem lookupNormalized_some {roles : List Role} {key canonical : String}
    (h : lookupNormalized roles key = some canonical) :
    ∃ r ∈ roles, r.name = canonical ∧ normalizeName r.name = key := by
  unfold lookupNormalized rolesNormalizedDict at h
  rcases dictGet_foldl_some (fun (r : Role) => normalizeName r.name) (fun (r : Role) => r.name) h
    with ⟨r, hr, h1, h2⟩
  exact ⟨r, hr, h2, h1⟩

theorem overlapsGet_some {roles : List Role} {name : String} {e : OverlapEntry}
    (h : overlapsGet roles name = some e) :
    ∃ r ∈ roles, r.name = name ∧ calcOverlapEntry roles r = e := by
  unfold overlapsGet calculate_overlaps at h
  rcases dictGet_foldl_some (fun (r : Role) => r.name) (fun r => calcOverlapEntry roles r) h
    with ⟨r, hr, h1, h2⟩
  exact ⟨r, hr, h1, h2⟩

theorem overlapsGet_isSome_of_mem {roles : List Role} {r : Role} (hr : r ∈ roles) :
    (overlapsGet roles r.name).isSome = true := by
  unfold overlapsGet calculate_overlaps
  exact dictGet_foldl_isSome_of_mem (fun (r : Role) => r.name) (fun r => calcOverlapEntry roles r) hr []

/-! ### Helper lemmas: stable sorting by distance -/

theorem filter_orderedInsert_key (c : Int) (x : NameDist) (l : List NameDist) :
    (List.orderedInsert ndLE x l).filter (fun p => p.distance == c) =
      if x.distance = c then x :: l.filter (fun p => p.distance == c)
      else l.filter (fun p => p.distance == c) := by
  induction l with
  | nil =>
    simp only [List.orderedInsert, List.filter_cons, List.filter_nil]
    by_cases hc : x.distance = c
    · rw [if_pos (beq_iff_eq.mpr hc), if_pos hc]
    · rw [if_neg (by simpa using hc), if_neg hc]
  | cons b l ih =>
    simp only [List.orderedInsert]
    by_cases h : ndLE x b
    · rw [if_pos h]
      by_cases hc : x.distance = c
      · rw [if_pos hc, List.filter_cons, if_pos (by simpa using hc)]
      · rw [if_neg hc, List.filter_cons, if_neg (by simpa using hc)]
    · rw [if_neg h]
      have hblt : b.distance < x.distance := lt_of_not_le h
      rw [List.filter_cons, List.filter_cons, ih]
      by_cases hc : x.distance = c
      · have hbc : (b.distance == c) = false := by
          simp only [beq_eq_false_iff_ne]
          exact fun hb => absurd (hb.trans hc.symm) (ne_of_lt hblt)
        simp [hc, hbc]
      · simp [hc]

theorem filter_insertionSort_key (c : Int) (l : List NameDist) :
    (List.insertionSort ndLE l).filter (fun p => p.distance == c) =
      l.filter (fun p => p.distance == c) := by
  induction l with
  | nil => rfl
  | cons x l ih =>
    simp only [List.insertionSort]
    rw [filter_orderedInsert_key, ih, List.filter_cons]
    by_cases hc : x.distance = c
    · rw [if_pos hc, if_pos (by simpa using hc)]
    · rw [if_neg hc, if_neg (by simpa using hc)]

/-! ### Helper lemmas: overlap pools -/

theorem name_ne_of_mem_distancesFor {roles : List Role} {r : Role} {nd : NameDist}
    (h : nd ∈ distancesFor roles r) : nd.name ≠ r.name := by
  unfold distancesFor at h
  rcases List.mem_map.1 h with ⟨other, hmem, rfl⟩
  have h2 := (List.mem_filter.1 hmem).2
  simpa [bne_iff_ne] using h2

theorem mem_distancesFor_of_mem_close {roles : List Role} {r : Role} {nd : NameDist}
    (h : nd ∈ (calcOverlapEntry roles r).close) : nd ∈ distancesFor roles r := by
  unfold calcOverlapEntry at h
  exact (List.mem_insertionSort ndLE).1 (List.mem_of_mem_take h)

theorem mem_distancesFor_of_mem_oddball {roles : List Role} {r : Role} {nd : NameDist}
    (h : nd ∈ (calcOverlapEntry roles r).oddball) : nd ∈ distancesFor roles r := by
  unfold calcOverlapEntry at h
  exact (List.mem_insertionSort ndLE).1 (List.mem_of_mem_drop (List.mem_of_mem_take h))

/-! ### Helper lemmas: permutations and sampling -/

theorem nodup_of_subperm {α : Type} {l₁ l₂ : List α} (h : List.Subperm l₁ l₂)
    (hn : l₂.Nodup) : l₁.Nodup := by
  rcases h with ⟨l, hperm, hsub⟩
  exact hperm.nodup (hsub.nodup hn)

theorem subperm_map {α β : Type} (f : α → β) {l₁ l₂ : List α}
    (h : List.Subperm l₁ l₂) : List.Subperm (l₁.map f) (l₂.map f) := by
  rcases h with ⟨l, hperm, hsub⟩
  exact ⟨l.map f, hperm.map f, hsub.map f⟩

theorem pySample_min {R : RandomOracle} {α : Type} (pool : List α) (n : Nat) :
    pySample R α pool (min n pool.length) =
      Except.ok (R.sample α pool (min n pool.length)) :=
  if_pos (Nat.min_le_right n pool.length)

theorem sample_min_spec {R : RandomOracle} (hR : R.Valid) (α : Type)
    (pool : List α) (n : Nat) :
    (R.sample α pool (min n pool.length)).length = min n pool.length ∧
      List.Subperm (R.sample α pool (min n pool.length)) pool :=
  hR.1 α pool _ (Nat.min_le_right _ _)

/-! ### Helper lemmas: result conversion -/

theorem mem_rolesToShow {roles : List Role} {sel : List NameDist} {ro : RoleOut}
    (h : ro ∈ rolesToShow roles sel) :
    ∃ s ∈ sel, ∃ c ∈ roles, c.name = s.name ∧
      ro = ⟨c.name, c.technical, c.creative, c.business, c.customer, some s.distance⟩ := by
  unfold rolesToShow at h
  rcases List.mem_filterMap.1 h with ⟨s, hs, hmap⟩
  rcases Option.map_eq_some'.1 hmap with ⟨c, hfind, hro⟩
  have hcmem := List.mem_of_find?_eq_some hfind
  have hcname : c.name = s.name := by
    have h2 := List.find?_some hfind
    simpa using h2
  exact ⟨s, hs, c, hcmem, hcname, hro.symm⟩

theorem length_rolesToShow_le (roles : List Role) (sel : List NameDist) :
    (rolesToShow roles sel).length ≤ sel.length :=
  List.length_filterMap_le _ _

/-! ### Helper lemmas: running the recommender paths -/

theorem unpersonalizedResult_run (R : RandomOracle) (roles : List Role) (count : Nat) :
    unpersonalizedResult R roles count =
      Except.ok ⟨(R.sample Role roles (min count roles.length)).map Role.toOut,
        false, none, false⟩ := by
  unfold unpersonalizedResult
  rw [pySample_min]
  rfl

theorem getRolesFromDatabase_run (R : RandomOracle) (roles : List Role)
    (normalizedRole canonical : String) (count : Nat) (e : OverlapEntry)
    (hres : lookupNormalized roles normalizedRole = some canonical)
    (hov : overlapsGet roles canonical = some e) :
    getRolesFromDatabase R roles normalizedRole count =
      Except.ok ⟨rolesToShow roles
        ((R.shuffle NameDist
          (R.sample NameDist e.close (min CLOSE_MATCHES_COUNT e.close.length) ++
            R.sample NameDist e.oddball (min ODDBALL_COUNT e.oddball.length))).take count),
        true, some canonical, false⟩ := by
  unfold getRolesFromDatabase
  rw [hres]
  dsimp only
  rw [hov]
  dsimp only
  rw [pySample_min, pySample_min]
  rfl

theorem getRolesFromMetrics_run (R : RandomOracle) (roles : List Role)
    (metrics : MetricsInput) (currentRole : String) (count : Nat) :
    getRolesFromMetrics R roles metrics currentRole count =
      Except.ok ⟨rolesToShow roles
        ((R.shuffle NameDist
          (R.sample NameDist (calculate_overlaps_on_fly roles (metricsTuple metrics) none none).close
            (min CLOSE_MATCHES_COUNT
              (calculate_overlaps_on_fly roles (metricsTuple metrics) none none).close.length) ++
            R.sample NameDist (calculate_overlaps_on_fly roles (metricsTuple metrics) none none).oddball
              (min ODDBALL_COUNT
                (calculate_overlaps_on_fly roles (metricsTuple metrics) none none).oddball.length))).take count),
        true, some currentRole, true⟩ := by
  unfold getRolesFromMetrics
  dsimp only
  rw [pySample_min, pySample_min]
  rfl

theorem gpr_dispatch_db (R : RandomOracle) (roles : List Role) (s : String)
    (metrics : Option MetricsInput) (count : Nat) (hs : s ≠ "")
    (hres : (lookupNormalized roles (normalizeName s)).isSome = true) :
    get_personalized_roles R roles (some s) metrics count =
      getRolesFromDatabase R roles (normalizeName s) count := by
  unfold get_personalized_roles
  have ht : truthyStr (some s) = true := by simp [truthyStr, hs]
  rw [if_pos ht]
  simp only [Option.getD_some]
  rw [if_pos hres]

theorem gpr_dispatch_metrics (R : RandomOracle) (roles : List Role) (s : String)
    (m : MetricsInput) (count : Nat) (hs : s ≠ "")
    (hres : lookupNormalized roles (normalizeName s) = none) (hm : m.isEmpty = false) :
    get_personalized_roles R roles (some s) (some m) count =
      getRolesFromMetrics R roles m s count := by
  unfold get_personalized_roles
  have ht : truthyStr (some s) = true := by simp [truthyStr, hs]
  rw [if_pos ht]
  simp only [Option.getD_some]
  rw [hres]
  have htm : truthyMetrics (some m) = true := by simp [truthyMetrics, hm]
  simp [htm]

theorem gpr_dispatch_unpersonalized (R : RandomOracle) (roles : List Role)
    (currentRole : Option String) (metrics : Option MetricsInput) (count : Nat)
    (hfalsy : truthyStr currentRole = false) :
    get_personalized_roles R roles currentRole metrics count =
      unpersonalizedResult R roles count := by
  unfold get_personalized_roles
  rw [hfalsy]
  rfl

theorem gpr_dispatch_fallback (R : RandomOracle) (roles : List Role) (s : String)
    (metrics : Option MetricsInput) (count : Nat) (hs : s ≠ "")
    (hres : lookupNormalized roles (normalizeName s) = none)
    (hm : truthyMetrics metrics = false) :
    get_personalized_roles R roles (some s) metrics count =
      unpersonalizedResult R roles count := by
  unfold get_personalized_roles
  have ht : truthyStr (some s) = true := by simp [truthyStr, hs]
  rw [if_pos ht]
  simp only [Option.getD_some]
  rw [hres]
  simp [hm]

theorem mem_pool_of_mem_selected {R : RandomOracle} (hR : R.Valid)
    {close oddball : List NameDist} {count : Nat} {sel : NameDist}
    (h : sel ∈ (R.shuffle NameDist
      (R.sample NameDist close (min CLOSE_MATCHES_COUNT close.length) ++
        R.sample NameDist oddball (min ODDBALL_COUNT oddball.length))).take count) :
    sel ∈ close ∨ sel ∈ oddball := by
  have h1 := List.mem_of_mem_take h
  have h2 := (hR.2 NameDist _).mem_iff.1 h1
  rcases List.mem_append.1 h2 with h3 | h3
  · exact Or.inl ((sample_min_spec hR NameDist close CLOSE_MATCHES_COUNT).2.subset h3)
  · exact Or.inr ((sample_min_spec hR NameDist oddball ODDBALL_COUNT).2.subset h3)

/-- C1: on the pre-computed-overlap path, the result is personalized,
carries the canonical display-cased current role, every returned record
carries a distance value, and no returned role is the current role
itself. -/
theorem C1_database_path_shape (R : RandomOracle) (hR : R.Valid)
    (roles : List Role) (s : String) (metrics : Option MetricsInput)
    (count : Nat) (hcount : 1 ≤ count) (hs : s ≠ "") (canonical : String)
    (hres : lookupNormalized roles (normalizeName s) = some canonical) :
    ∃ res, get_personalized_roles R roles (some s) metrics count = Except.ok res ∧
      res.personalized = true ∧
      res.current_role = some canonical ∧
      (∀ ro ∈ res.roles, ro.distance.isSome = true ∧ ro.name ≠ canonical) := by
  rcases lookupNormalized_some hres with ⟨rc, hrcmem, hrcname, _⟩
  have hovSome : (overlapsGet roles canonical).isSome = true := by
    rw [← hrcname]
    exact overlapsGet_isSome_of_mem hrcmem
  rcases Option.isSome_iff_exists.1 hovSome with ⟨e, hov⟩
  rcases overlapsGet_some hov with ⟨r0, hr0mem, hr0name, hentry⟩
  rw [gpr_dispatch_db R roles s metrics count hs (by rw [hres]; rfl),
    getRolesFromDatabase_run R roles (normalizeName s) canonical count e hres hov]
  refine ⟨_, rfl, rfl, rfl, ?_⟩
  intro ro hro
  rcases mem_rolesToShow hro with ⟨sel, hsel, c, hcmem, hcname, hroeq⟩
  have hpool := mem_pool_of_mem_selected hR hsel
  have hseldist : sel ∈ distancesFor roles r0 := by
    rcases hpool with h3 | h3
    · exact mem_distancesFor_of_mem_close (by rw [hentry]; exact h3)
    · exact mem_distancesFor_of_mem_oddball (by rw [hentry]; exact h3)
  have hne : sel.name ≠ canonical := by
    rw [← hr0name]
    exact name_ne_of_mem_distancesFor hseldist
  constructor
  · rw [hroeq]
    rfl
  · rw [hroeq]
    simpa [hcname] using hne

/-! ### A concrete valid randomness source for witnesses -/

/-- A degenerate but contract-conforming randomness source: `sample`
takes the first `k` elements, `shuffle` changes nothing. -/
def takeOracle : RandomOracle :=
  ⟨fun _ l k => l.take k, fun _ l => l⟩

theorem takeOracle_valid : takeOracle.Valid := by
  refine ⟨fun α l k hk => ⟨?_, ?_⟩, fun α l => List.Perm.refl l⟩
  · simp [takeOracle]
    exact hk
  · exact (List.take_sublist k l).subperm

/-- A small demonstration catalog with pairwise distinct names and
metrics. -/
def demoRoles : List Role :=
  [⟨"Software Engineer", 9, 3, 4, 2⟩, ⟨"Data Scientist", 8, 4, 5, 3⟩,
    ⟨"Product Manager", 4, 5, 9, 7⟩]

theorem C1_database_path_shape_witness :
    (1 ≤ 27 ∧ "software engineer" ≠ "" ∧
      lookupNormalized demoRoles (normalizeName "software engineer") =
        some "Software Engineer") ∧
    (∃ res, get_personalized_roles takeOracle demoRoles (some "software engineer")
        none 27 = Except.ok res ∧
      res.personalized = true ∧
      res.current_role = some "Software Engineer" ∧
      (∀ ro ∈ res.roles, ro.distance.isSome = true ∧ ro.name ≠ "Software Engineer")) :=
  ⟨⟨by decide, by decide, by decide⟩,
    C1_database_path_shape takeOracle takeOracle_valid demoRoles "software engineer"
      none 27 (by decide) (by decide) "Software Engineer" (by decide)⟩

theorem length_filter_ne_name :
    ∀ (roles : List Role), (roles.map Role.name).Nodup → ∀ r ∈ roles,
      (roles.filter (fun o => o.name != r.name)).length = roles.length - 1
  | [], _, r, hr => absurd hr (List.not_mem_nil r)
  | x :: roles, hnd, r, hr => by
    rw [List.map_cons, List.nodup_cons] at hnd
    rcases List.mem_cons.1 hr with he | hr'
    · rw [List.filter_cons]
      have hx : (x.name != r.name) = false := by simp [he]
      rw [hx]
      have hkeep : roles.filter (fun o => o.name != r.name) = roles := by
        apply List.filter_eq_self.2
        intro o ho
        simp only [bne_iff_ne, ne_eq, decide_eq_true_eq]
        intro hne
        apply hnd.1
        rw [← he, ← hne]
        exact List.mem_map_of_mem Role.name ho
      simp [hkeep]
    · rw [List.filter_cons]
      have hx : (x.name != r.name) = true := by
        simp only [bne_iff_ne, ne_eq, decide_eq_true_eq]
        intro he
        exact hnd.1 (by rw [he]; exact List.mem_map_of_mem Role.name hr')
      rw [hx]
      simp only [if_pos, List.length_cons]
      rw [length_filter_ne_name roles hnd.2 r hr']
      have hpos : 1 ≤ roles.length := List.length_pos.2 (List.ne_nil_of_mem hr')
      omega

theorem length_distancesFor {roles : List Role} {r : Role}
    (hnd : (roles.map Role.name).Nodup) (hr : r ∈ roles) :
    (distancesFor roles r).length = roles.length - 1 := by
  unfold distancesFor
  rw [List.length_map]
  exact length_filter_ne_name roles hnd r hr

theorem overlapsGet_eq_of_nodup {roles : List Role} {r : Role}
    (hnd : (roles.map Role.name).Nodup) (hr : r ∈ roles) :
    overlapsGet roles r.name = some (calcOverlapEntry roles r) := by
  rcases Option.isSome_iff_exists.1 (overlapsGet_isSome_of_mem hr) with ⟨e, hov⟩
  rcases overlapsGet_some hov with ⟨r', hr'mem, hr'name, hentry⟩
  have heq : r' = r := List.inj_on_of_nodup_map hnd hr'mem hr hr'name
  rw [hov, ← hentry, heq]

/-- C2: for a catalog with pairwise-distinct names, the pre-computed
entry for a role `R` is obtained from the stably (ties in catalog
iteration order) ascending-sorted list of all other roles with their
distances: `close` is its first `min(15, n-1)` entries, and `oddball`
is the first `5` of its last `min(8, n-1)` entries.  Distances here are
represented by their squares, an order- and equality-preserving
encoding of the Euclidean distances the code stores. -/
theorem C2_overlap_entry_structure (roles : List Role) (r : Role)
    (hnd : (roles.map Role.name).Nodup) (hr : r ∈ roles) :
    ∃ sorted : List NameDist,
      List.Perm sorted (distancesFor roles r) ∧
      List.Sorted ndLE sorted ∧
      (∀ c : Int, sorted.filter (fun p => p.distance == c) =
        (distancesFor roles r).filter (fun p => p.distance == c)) ∧
      sorted.length = roles.length - 1 ∧
      overlapsGet roles r.name = some
        ⟨sorted.take CLOSE_POOL_SIZE,
          (sorted.drop (sorted.length - ODDBALL_POOL_WINDOW)).take ODDBALL_POOL_SIZE⟩ ∧
      (sorted.take CLOSE_POOL_SIZE).length = min CLOSE_POOL_SIZE (roles.length - 1) ∧
      ((sorted.drop (sorted.length - ODDBALL_POOL_WINDOW)).take ODDBALL_POOL_SIZE).length =
        min ODDBALL_POOL_SIZE (min ODDBALL_POOL_WINDOW (roles.length - 1)) := by
  refine ⟨List.insertionSort ndLE (distancesFor roles r),
    List.perm_insertionSort ndLE _, List.sorted_insertionSort ndLE _,
    fun c => filter_insertionSort_key c _, ?_, ?_, ?_, ?_⟩
  · rw [List.length_insertionSort]
    exact length_distancesFor hnd hr
  · rw [overlapsGet_eq_of_nodup hnd hr]
    rfl
  · rw [List.length_take, List.length_insertionSort, length_distancesFor hnd hr]
  · rw [List.length_take, List.length_drop, List.length_insertionSort,
      length_distancesFor hnd hr]
    have : ODDBALL_POOL_SIZE = 5 ∧ ODDBALL_POOL_WINDOW = 8 := ⟨rfl, rfl⟩
    omega

def seRole : Role := ⟨"Software Engineer", 9, 3, 4, 2⟩

theorem C2_overlap_entry_structure_witness :
    ((demoRoles.map Role.name).Nodup ∧ seRole ∈ demoRoles) ∧
    (∃ sorted : List NameDist,
      List.Perm sorted (distancesFor demoRoles seRole) ∧
      List.Sorted ndLE sorted ∧
      (∀ c : Int, sorted.filter (fun p => p.distance == c) =
        (distancesFor demoRoles seRole).filter (fun p => p.distance == c)) ∧
      sorted.length = demoRoles.length - 1 ∧
      overlapsGet demoRoles seRole.name = some
        ⟨sorted.take CLOSE_POOL_SIZE,
          (sorted.drop (sorted.length - ODDBALL_POOL_WINDOW)).take ODDBALL_POOL_SIZE⟩ ∧
      (sorted.take CLOSE_POOL_SIZE).length = min CLOSE_POOL_SIZE (demoRoles.length - 1) ∧
      ((sorted.drop (sorted.length - ODDBALL_POOL_WINDOW)).take ODDBALL_POOL_SIZE).length =
        min ODDBALL_POOL_SIZE (min ODDBALL_POOL_WINDOW (demoRoles.length - 1))) :=
  ⟨⟨by decide, by decide⟩,
    C2_overlap_entry_structure demoRoles seRole (by decide) (by decide)⟩

instance {e a : Type} [DecidableEq e] [DecidableEq a] : DecidableEq (Except e a) := fun x y =>
  match x, y with
  | Except.ok v, Except.ok w =>
    if h : v = w then Decidable.isTrue (by rw [h])
    else Decidable.isFalse (fun he => by cases he; exact h rfl)
  | Except.error v, Except.error w =>
    if h : v = w then Decidable.isTrue (by rw [h])
    else Decidable.isFalse (fun he => by cases he; exact h rfl)
  | Except.ok _, Except.error _ => Decidable.isFalse (fun he => by cases he)
  | Except.error _, Except.ok _ => Decidable.isFalse (fun he => by cases he)

/-- A 3-role catalog on which the close and oddball windows of an
overlap entry coincide, so the selected pools contain each other role
twice. -/
def tinyRoles : List Role :=
  [⟨"RoleA", 1, 1, 1, 1⟩, ⟨"RoleB", 2, 1, 1, 1⟩, ⟨"RoleC", 3, 1, 1, 1⟩]

/-- C3 counterexample: on a 3-role catalog, requesting 4 roles for the
resolvable current role "rolea" under a contract-conforming randomness
source returns 4 role records — more than the catalog size — because
the 15-wide close window and the 8-wide oddball tail overlap on small
catalogs and the two pools repeat the same roles. -/
theorem C3_counterexample :
    takeOracle.Valid ∧ tinyRoles.length < 4 ∧
    Except.map (fun res => decide (tinyRoles.length < res.roles.length))
        (get_personalized_roles takeOracle tinyRoles (some "rolea") none 4) =
      Except.ok true :=
  ⟨takeOracle_valid, by decide, by decide⟩

/-- C3 amended: on every decision path the call returns successfully
(sampling is always invoked with a size clamped to the pool, so it
degrades instead of raising) and yields at most `count` roles; on the
unpersonalized path at most the catalog size.  On the overlap paths the
result may exceed the catalog size when the catalog is small (the pools
overlap), as `C3_counterexample` shows. -/
theorem C3_no_raise_and_count_bound (R : RandomOracle) (hR : R.Valid)
    (roles : List Role) (currentRole : Option String)
    (metrics : Option MetricsInput) (count : Nat)
    (hcount : roles.length < count) :
    ∃ res, get_personalized_roles R roles currentRole metrics count = Except.ok res ∧
      res.roles.length ≤ count ∧
      (truthyStr currentRole = false → res.roles.length ≤ roles.length) := by
  by_cases htruthy : truthyStr currentRole = true
  · have hs : ∃ s, currentRole = some s ∧ s ≠ "" := by
      cases currentRole with
      | none => cases htruthy
      | some s =>
        refine ⟨s, rfl, ?_⟩
        intro he
        rw [he] at htruthy
        cases htruthy
    rcases hs with ⟨s, rfl, hsne⟩
    cases hlook : lookupNormalized roles (normalizeName s) with
    | some canonical =>
      rcases lookupNormalized_some hlook with ⟨rc, hrcmem, hrcname, _⟩
      have hovSome : (overlapsGet roles canonical).isSome = true := by
        rw [← hrcname]
        exact overlapsGet_isSome_of_mem hrcmem
      rcases Option.isSome_iff_exists.1 hovSome with ⟨e, hov⟩
      rw [gpr_dispatch_db R roles s metrics count hsne (by rw [hlook]; rfl),
        getRolesFromDatabase_run R roles (normalizeName s) canonical count e hlook hov]
      refine ⟨_, rfl, ?_, ?_⟩
      · calc (rolesToShow roles _).length ≤ _ := length_rolesToShow_le _ _
          _ ≤ count := List.length_take_le _ _
      · intro hfalse
        rw [htruthy] at hfalse
        cases hfalse
    | none =>
      by_cases hm : truthyMetrics metrics = true
      · have hmm : ∃ m, metrics = some m ∧ m.isEmpty = false := by
          cases metrics with
          | none => cases hm
          | some m =>
            refine ⟨m, rfl, ?_⟩
            cases hie : m.isEmpty
            · rfl
            · rw [truthyMetrics, hie] at hm
              cases hm
        rcases hmm with ⟨m, rfl, hmne⟩
        rw [gpr_dispatch_metrics R roles s m count hsne hlook hmne,
          getRolesFromMetrics_run R roles m s count]
        refine ⟨_, rfl, ?_, ?_⟩
        · calc (rolesToShow roles _).length ≤ _ := length_rolesToShow_le _ _
            _ ≤ count := List.length_take_le _ _
        · intro hfalse
          rw [htruthy] at hfalse
          cases hfalse
      · rw [gpr_dispatch_fallback R roles s metrics count hsne hlook
          (Bool.not_eq_true _ ▸ hm), unpersonalizedResult_run]
        refine ⟨_, rfl, ?_, fun _ => ?_⟩
        · rw [List.length_map, (sample_min_spec hR Role roles count).1]
          exact Nat.min_le_left _ _
        · rw [List.length_map, (sample_min_spec hR Role roles count).1]
          exact Nat.min_le_right _ _
  · rw [gpr_dispatch_unpersonalized R roles currentRole metrics count
      (Bool.not_eq_true _ ▸ htruthy), unpersonalizedResult_run]
    refine ⟨_, rfl, ?_, fun _ => ?_⟩
    · rw [List.length_map, (sample_min_spec hR Role roles count).1]
      exact Nat.min_le_left _ _
    · rw [List.length_map, (sample_min_spec hR Role roles count).1]
      exact Nat.min_le_right _ _

theorem C3_no_raise_and_count_bound_witness :
    tinyRoles.length < 4 ∧
    (∃ res, get_personalized_roles takeOracle tinyRoles none none 4 = Except.ok res ∧
      res.roles.length ≤ 4 ∧
      (truthyStr none = false → res.roles.length ≤ tinyRoles.length)) :=
  ⟨by decide, C3_no_raise_and_count_bound takeOracle takeOracle_valid tinyRoles
    none none 4 (by decide)⟩

/-- A 16-role catalog: the close pool (15) and the oddball window (8)
are both smaller than the catalog, yet the two windows overlap
because 15 + 8 > 16 - 1. -/
def roles16 : List Role :=
  [⟨"R0", 0, 0, 0, 0⟩, ⟨"R1", 1, 0, 0, 0⟩, ⟨"R2", 2, 0, 0, 0⟩, ⟨"R3", 3, 0, 0, 0⟩, ⟨"R4", 4, 0, 0, 0⟩, ⟨"R5", 5, 0, 0, 0⟩, ⟨"R6", 6, 0, 0, 0⟩, ⟨"R7", 7, 0, 0, 0⟩, ⟨"R8", 8, 0, 0, 0⟩, ⟨"R9", 9, 0, 0, 0⟩, ⟨"R10", 10, 0, 0, 0⟩, ⟨"R11", 11, 0, 0, 0⟩, ⟨"R12", 12, 0, 0, 0⟩, ⟨"R13", 13, 0, 0, 0⟩, ⟨"R14", 14, 0, 0, 0⟩, ⟨"R15", 15, 0, 0, 0⟩]

/-- A 24-role catalog: large enough (n - 1 = 23 = 15 + 8) for the
close and oddball windows not to overlap. -/
def roles24 : List Role :=
  [⟨"S0", 0, 0, 0, 0⟩, ⟨"S1", 1, 0, 0, 0⟩, ⟨"S2", 2, 0, 0, 0⟩, ⟨"S3", 3, 0, 0, 0⟩, ⟨"S4", 4, 0, 0, 0⟩, ⟨"S5", 5, 0, 0, 0⟩, ⟨"S6", 6, 0, 0, 0⟩, ⟨"S7", 7, 0, 0, 0⟩, ⟨"S8", 8, 0, 0, 0⟩, ⟨"S9", 9, 0, 0, 0⟩, ⟨"S10", 10, 0, 0, 0⟩, ⟨"S11", 11, 0, 0, 0⟩, ⟨"S12", 12, 0, 0, 0⟩, ⟨"S13", 13, 0, 0, 0⟩, ⟨"S14", 14, 0, 0, 0⟩, ⟨"S15", 15, 0, 0, 0⟩, ⟨"S16", 16, 0, 0, 0⟩, ⟨"S17", 17, 0, 0, 0⟩, ⟨"S18", 18, 0, 0, 0⟩, ⟨"S19", 19, 0, 0, 0⟩, ⟨"S20", 20, 0, 0, 0⟩, ⟨"S21", 21, 0, 0, 0⟩, ⟨"S22", 22, 0, 0, 0⟩, ⟨"S23", 23, 0, 0, 0⟩]

/-- C4 counterexample: on the 16-role catalog both pool sizes (15 and
8) are smaller than the catalog size, yet the pre-computed close and
oddball lists of "R0" share role names: with only 15 other roles the
close list is the whole sorted list, and the oddball tail is a
sub-slice of it. -/
theorem C4_counterexample :
    CLOSE_POOL_SIZE < roles16.length ∧ ODDBALL_POOL_WINDOW < roles16.length ∧
    ODDBALL_POOL_SIZE < roles16.length ∧ (roles16.map Role.name).Nodup ∧
    (overlapsGet roles16 "R0").map (fun e =>
        e.oddball.any (fun nd => e.close.any (fun nd2 => nd2.name == nd.name))) =
      some true :=
  ⟨by decide, by decide, by decide, by decide, by decide⟩

theorem nodup_names_distancesFor {roles : List Role} {r : Role}
    (hnd : (roles.map Role.name).Nodup) :
    ((distancesFor roles r).map NameDist.name).Nodup := by
  unfold distancesFor
  rw [List.map_map]
  have hsub : List.Sublist (roles.filter (fun o => o.name != r.name)) roles :=
    List.filter_sublist roles
  have : (List.map (NameDist.name ∘ fun other =>
      (⟨other.name, calculate_distance r.metricsOf other.metricsOf⟩ : NameDist))
        (roles.filter (fun o => o.name != r.name))) =
      (roles.filter (fun o => o.name != r.name)).map Role.name := by
    apply List.map_congr_left
    intro o _
    rfl
  rw [this]
  exact (hsub.map Role.name).nodup hnd

/-- C4 amended: the close and oddball lists for a role are disjoint as
soon as the catalog holds at least `15 + 8 + 1 = 24` roles, i.e. as
soon as the close window and the oddball tail of the sorted distance
list cannot overlap.  (For catalogs of 16 to 23 roles the two pools
are each smaller than the catalog, yet overlap — see
`C4_counterexample`.) -/
theorem C4_disjoint_when_catalog_large (roles : List Role) (r : Role)
    (hnd : (roles.map Role.name).Nodup) (hr : r ∈ roles)
    (hsize : CLOSE_POOL_SIZE + ODDBALL_POOL_WINDOW + 1 ≤ roles.length) :
    ∀ e, overlapsGet roles r.name = some e →
      ∀ nm, nm ∈ e.close.map NameDist.name → nm ∉ e.oddball.map NameDist.name := by
  intro e he nm hclose hodd
  rw [overlapsGet_eq_of_nodup hnd hr] at he
  cases he
  unfold calcOverlapEntry at hclose hodd
  set sorted := List.insertionSort ndLE (distancesFor roles r) with hsorted
  have hL : sorted.length = roles.length - 1 := by
    rw [hsorted, List.length_insertionSort]
    exact length_distancesFor hnd hr
  have hL23 : CLOSE_POOL_SIZE + ODDBALL_POOL_WINDOW ≤ sorted.length := by
    rw [hL]
    omega
  have hnames : (sorted.map NameDist.name).Nodup := by
    have hperm := (List.perm_insertionSort ndLE (distancesFor roles r)).map NameDist.name
    exact hperm.nodup_iff.2 (nodup_names_distancesFor hnd)
  have hsplit : (sorted.map NameDist.name) =
      (sorted.take CLOSE_POOL_SIZE).map NameDist.name ++
        (sorted.drop CLOSE_POOL_SIZE).map NameDist.name := by
    rw [← List.map_append, List.take_append_drop]
  rw [hsplit] at hnames
  rcases List.nodup_append.1 hnames with ⟨_, _, hdisj⟩
  apply hdisj hclose
  have hoddball : nm ∈ (sorted.drop (sorted.length - ODDBALL_POOL_WINDOW)).map NameDist.name :=
    List.map_subset _ (List.take_subset _ _) hodd
  rcases List.mem_map.1 hoddball with ⟨nd, hnd2, hnm⟩
  have hdropped : nd ∈ sorted.drop CLOSE_POOL_SIZE := by
    have heq : sorted.length - ODDBALL_POOL_WINDOW =
        CLOSE_POOL_SIZE + (sorted.length - ODDBALL_POOL_WINDOW - CLOSE_POOL_SIZE) := by
      omega
    rw [heq, ← List.drop_drop] at hnd2
    exact List.drop_subset _ _ hnd2
  exact hnm ▸ List.mem_map_of_mem NameDist.name hdropped

theorem C4_disjoint_when_catalog_large_witness :
    ((roles24.map Role.name).Nodup ∧ (⟨"S0", 0, 0, 0, 0⟩ : Role) ∈ roles24 ∧
      CLOSE_POOL_SIZE + ODDBALL_POOL_WINDOW + 1 ≤ roles24.length) ∧
    (∀ e, overlapsGet roles24 (Role.name ⟨"S0", 0, 0, 0, 0⟩) = some e →
      ∀ nm, nm ∈ e.close.map NameDist.name → nm ∉ e.oddball.map NameDist.name) :=
  ⟨⟨by decide, by decide, by decide⟩,
    C4_disjoint_when_catalog_large roles24 ⟨"S0", 0, 0, 0, 0⟩ (by decide) (by decide)
      (by decide)⟩

theorem load_normalized_error_of_nameless :
    ∀ (l : List RawRole) (acc : List (String × String)),
      (∃ ro ∈ l, ro.name = none) →
      l.foldlM (fun (acc : List (String × String)) (ro : RawRole) =>
          match ro.name with
          | none => Except.error LoadError.keyError
          | some n => Except.ok (dinsert acc (normalizeName n) n)) acc =
        Except.error LoadError.keyError
  | [], _, h => by
    rcases h with ⟨ro, hro, _⟩
    exact absurd hro (List.not_mem_nil ro)
  | ro :: l, acc, h => by
    cases hn : ro.name with
    | none =>
      simp only [List.foldlM, hn]
      rfl
    | some n =>
      rcases h with ⟨ro', hro', hname⟩
      rcases List.mem_cons.1 hro' with he | hmem
      · rw [he, hn] at hname
        cases hname
      · simp only [List.foldlM, hn]
        exact load_normalized_error_of_nameless l _ ⟨ro', hmem, hname⟩

/-- C5 counterexample: a present-but-malformed data source does not
degrade to an empty catalog — `json.load` raises in both loaders and
nothing catches it. -/
theorem C5_counterexample :
    load_normalized DataSource.unparsable = Except.error LoadError.jsonDecodeError ∧
    load_all_roles DataSource.unparsable = Except.error LoadError.jsonDecodeError :=
  ⟨rfl, rfl⟩

/-- C5 amended: only a missing source degrades gracefully (empty
normalized map with a warning; empty role list, without one).  An
unparsable source raises from `json.load` in both loaders, and a
parsed document containing a role object without a `'name'` key raises
`KeyError` from `_load_normalized` — while `_load_all_roles` returns
the raw list unchecked. -/
theorem C5_loading_behaviour :
    load_normalized DataSource.missing = Except.ok ([], true) ∧
    load_all_roles DataSource.missing = Except.ok [] ∧
    load_normalized DataSource.unparsable = Except.error LoadError.jsonDecodeError ∧
    load_all_roles DataSource.unparsable = Except.error LoadError.jsonDecodeError ∧
    (∀ doc : JsonDoc, (∃ ro ∈ doc.roles.getD [], ro.name = none) →
      load_normalized (DataSource.parsed doc) = Except.error LoadError.keyError) ∧
    (∀ doc : JsonDoc, load_all_roles (DataSource.parsed doc) = Except.ok (doc.roles.getD [])) := by
  refine ⟨rfl, rfl, rfl, rfl, ?_, fun _ => rfl⟩
  intro doc hro
  unfold load_normalized
  dsimp only
  rw [load_normalized_error_of_nameless (doc.roles.getD []) [] hro]
  rfl

theorem C5_loading_behaviour_witness :
    (∃ ro ∈ (JsonDoc.mk (some [RawRole.mk none none none none none])).roles.getD [],
        ro.name = none) ∧
    load_normalized (DataSource.parsed (JsonDoc.mk (some [RawRole.mk none none none none none]))) =
      Except.error LoadError.keyError :=
  ⟨⟨RawRole.mk none none none none none, by decide, rfl⟩,
    C5_loading_behaviour.2.2.2.2.1 (JsonDoc.mk (some [RawRole.mk none none none none none]))
      ⟨RawRole.mk none none none none none, by decide, rfl⟩⟩

/-- C6: on the on-the-fly metrics path (non-empty current role that
does not exact-resolve, truthy metrics) the result is personalized,
flagged as an edge case, echoes the original input string verbatim,
and its candidate pools come from the stably ascending-sorted distance
list over every catalog role: close is its first 20 entries and
oddball the first 7 of its last 10 entries. -/
theorem C6_metrics_path_shape (R : RandomOracle) (hR : R.Valid)
    (roles : List Role) (s : String) (m : MetricsInput) (count : Nat)
    (hs : s ≠ "") (hlook : lookupNormalized roles (normalizeName s) = none)
    (hm : m.isEmpty = false) :
    ∃ res, get_personalized_roles R roles (some s) (some m) count = Except.ok res ∧
      res.personalized = true ∧ res.edge_case = true ∧ res.current_role = some s ∧
      (∃ sorted : List NameDist,
        List.Perm sorted (roles.map (fun other =>
          (⟨other.name, calculate_distance (metricsTuple m) other.metricsOf⟩ : NameDist))) ∧
        List.Sorted ndLE sorted ∧
        (∀ c : Int, sorted.filter (fun p => p.distance == c) =
          (roles.map (fun other =>
            (⟨other.name, calculate_distance (metricsTuple m) other.metricsOf⟩ : NameDist))).filter
            (fun p => p.distance == c)) ∧
        calculate_overlaps_on_fly roles (metricsTuple m) none none =
          ⟨sorted.take CLOSE_MATCHES_COUNT,
            (sorted.drop (sorted.length - 10)).take ODDBALL_COUNT⟩ ∧
        (sorted.take CLOSE_MATCHES_COUNT).length = min CLOSE_MATCHES_COUNT roles.length ∧
        ((sorted.drop (sorted.length - 10)).take ODDBALL_COUNT).length =
          min ODDBALL_COUNT (min 10 roles.length)) := by
  rw [gpr_dispatch_metrics R roles s m count hs hlook hm,
    getRolesFromMetrics_run R roles m s count]
  refine ⟨_, rfl, rfl, rfl, rfl,
    List.insertionSort ndLE (roles.map (fun other =>
      (⟨other.name, calculate_distance (metricsTuple m) other.metricsOf⟩ : NameDist))),
    List.perm_insertionSort ndLE _, List.sorted_insertionSort ndLE _,
    fun c => filter_insertionSort_key c _, ?_, ?_, ?_⟩
  · rfl
  · rw [List.length_take, List.length_insertionSort, List.length_map]
  · rw [List.length_take, List.length_drop, List.length_insertionSort, List.length_map]
    omega

theorem C6_metrics_path_shape_witness :
    ("unknown-xyz-role" ≠ "" ∧
      lookupNormalized demoRoles (normalizeName "unknown-xyz-role") = none ∧
      ([("technical", (9 : Int)), ("creative", 2), ("business", 3),
        ("customer", 1)] : MetricsInput).isEmpty = false) ∧
    (∃ res, get_personalized_roles takeOracle demoRoles (some "unknown-xyz-role")
        (some [("technical", 9), ("creative", 2), ("business", 3), ("customer", 1)]) 27 =
        Except.ok res ∧
      res.personalized = true ∧ res.edge_case = true ∧
      res.current_role = some "unknown-xyz-role" ∧
      (∃ sorted : List NameDist,
        List.Perm sorted (demoRoles.map (fun other =>
          (⟨other.name, calculate_distance
            (metricsTuple [("technical", 9), ("creative", 2), ("business", 3), ("customer", 1)])
            other.metricsOf⟩ : NameDist))) ∧
        List.Sorted ndLE sorted ∧
        (∀ c : Int, sorted.filter (fun p => p.distance == c) =
          (demoRoles.map (fun other =>
            (⟨other.name, calculate_distance
              (metricsTuple [("technical", 9), ("creative", 2), ("business", 3), ("customer", 1)])
              other.metricsOf⟩ : NameDist))).filter (fun p => p.distance == c)) ∧
        calculate_overlaps_on_fly demoRoles
            (metricsTuple [("technical", 9), ("creative", 2), ("business", 3), ("customer", 1)])
            none none =
          ⟨sorted.take CLOSE_MATCHES_COUNT,
            (sorted.drop (sorted.length - 10)).take ODDBALL_COUNT⟩ ∧
        (sorted.take CLOSE_MATCHES_COUNT).length = min CLOSE_MATCHES_COUNT demoRoles.length ∧
        ((sorted.drop (sorted.length - 10)).take ODDBALL_COUNT).length =
          min ODDBALL_COUNT (min 10 demoRoles.length))) :=
  ⟨⟨by decide, by decide, by decide⟩,
    C6_metrics_path_shape takeOracle takeOracle_valid demoRoles "unknown-xyz-role"
      [("technical", 9), ("creative", 2), ("business", 3), ("customer", 1)] 27
      (by decide) (by decide) (by decide)⟩

/-- C7: with no current role and no metrics the result is an
unpersonalized sample without replacement from the full catalog: at
most `count` roles (exactly `min count N`), all drawn from the catalog,
with no duplicate names when the catalog names are distinct. -/
theorem C7_unpersonalized_random (R : RandomOracle) (hR : R.Valid)
    (roles : List Role) (count : Nat) (hnd : (roles.map Role.name).Nodup) :
    ∃ res, get_personalized_roles R roles none none count = Except.ok res ∧
      res.personalized = false ∧
      res.roles.length = min count roles.length ∧
      res.roles.length ≤ count ∧
      List.Subperm res.roles (roles.map Role.toOut) ∧
      (res.roles.map RoleOut.name).Nodup := by
  rw [gpr_dispatch_unpersonalized R roles none none count rfl, unpersonalizedResult_run]
  refine ⟨_, rfl, rfl, ?_, ?_, ?_, ?_⟩
  · rw [List.length_map, (sample_min_spec hR Role roles count).1]
  · rw [List.length_map, (sample_min_spec hR Role roles count).1]
    exact Nat.min_le_left _ _
  · exact subperm_map Role.toOut (sample_min_spec hR Role roles count).2
  · have h1 : ((R.sample Role roles (min count roles.length)).map Role.toOut).map RoleOut.name =
        (R.sample Role roles (min count roles.length)).map Role.name := by
      rw [List.map_map]
      apply List.map_congr_left
      intro a _
      rfl
    rw [h1]
    exact nodup_of_subperm (subperm_map Role.name (sample_min_spec hR Role roles count).2) hnd

theorem C7_unpersonalized_random_witness :
    (demoRoles.map Role.name).Nodup ∧
    (∃ res, get_personalized_roles takeOracle demoRoles none none 27 = Except.ok res ∧
      res.personalized = false ∧
      res.roles.length = min 27 demoRoles.length ∧
      res.roles.length ≤ 27 ∧
      List.Subperm res.roles (demoRoles.map Role.toOut) ∧
      (res.roles.map RoleOut.name).Nodup) :=
  ⟨by decide, C7_unpersonalized_random takeOracle takeOracle_valid demoRoles 27 (by decide)⟩

/-- C8: no request mutates the catalog — in this pure embedding the
catalog is an immutable argument, and the theorem captures the
observable content of the copy discipline: every returned record agrees
field-for-field with a catalog record, carries a distance value exactly
on the personalized paths, and has no distance key on the
unpersonalized path. -/
theorem C8_results_are_copies (R : RandomOracle) (hR : R.Valid)
    (roles : List Role) (currentRole : Option String)
    (metrics : Option MetricsInput) (count : Nat) :
    ∃ res, get_personalized_roles R roles currentRole metrics count = Except.ok res ∧
      ∀ ro ∈ res.roles, ∃ c ∈ roles,
        ro.name = c.name ∧ ro.technical = c.technical ∧ ro.creative = c.creative ∧
        ro.business = c.business ∧ ro.customer = c.customer ∧
        (res.personalized = true → ro.distance.isSome = true) ∧
        (res.personalized = false → ro.distance = none) := by
  have hunpers : ∀ ro ∈ (R.sample Role roles (min count roles.length)).map Role.toOut,
      ∃ c ∈ roles, ro.name = c.name ∧ ro.technical = c.technical ∧
        ro.creative = c.creative ∧ ro.business = c.business ∧ ro.customer = c.customer ∧
        ro.distance = none := by
    intro ro hro
    rcases List.mem_map.1 hro with ⟨c, hcs, he⟩
    exact ⟨c, (sample_min_spec hR Role roles count).2.subset hcs,
      he ▸ ⟨rfl, rfl, rfl, rfl, rfl, rfl⟩⟩
  have hshow : ∀ (sel : List NameDist), ∀ ro ∈ rolesToShow roles sel,
      ∃ c ∈ roles, ro.name = c.name ∧ ro.technical = c.technical ∧
        ro.creative = c.creative ∧ ro.business = c.business ∧ ro.customer = c.customer ∧
        ro.distance.isSome = true := by
    intro sel ro hro
    rcases mem_rolesToShow hro with ⟨s2, _, c, hc, _, hroeq⟩
    exact ⟨c, hc, hroeq ▸ ⟨rfl, rfl, rfl, rfl, rfl, rfl⟩⟩
  by_cases htruthy : truthyStr currentRole = true
  · have hs : ∃ s, currentRole = some s ∧ s ≠ "" := by
      cases currentRole with
      | none => cases htruthy
      | some s =>
        refine ⟨s, rfl, ?_⟩
        intro he
        rw [he] at htruthy
        cases htruthy
    rcases hs with ⟨s, rfl, hsne⟩
    cases hlook : lookupNormalized roles (normalizeName s) with
    | some canonical =>
      rcases lookupNormalized_some hlook with ⟨rc, hrcmem, hrcname, _⟩
      have hovSome : (overlapsGet roles canonical).isSome = true := by
        rw [← hrcname]
        exact overlapsGet_isSome_of_mem hrcmem
      rcases Option.isSome_iff_exists.1 hovSome with ⟨e, hov⟩
      rw [gpr_dispatch_db R roles s metrics count hsne (by rw [hlook]; rfl),
        getRolesFromDatabase_run R roles (normalizeName s) canonical count e hlook hov]
      refine ⟨_, rfl, ?_⟩
      intro ro hro
      rcases hshow _ ro hro with ⟨c, hc, h1, h2, h3, h4, h5, h6⟩
      refine ⟨c, hc, h1, h2, h3, h4, h5, fun _ => h6, ?_⟩
      intro hf
      exact absurd hf (by simp)
    | none =>
      by_cases hm : truthyMetrics metrics = true
      · have hmm : ∃ m, metrics = some m ∧ m.isEmpty = false := by
          cases metrics with
          | none => cases hm
          | some m =>
            refine ⟨m, rfl, ?_⟩
            cases hie : m.isEmpty
            · rfl
            · rw [truthyMetrics, hie] at hm
              cases hm
        rcases hmm with ⟨m, rfl, hmne⟩
        rw [gpr_dispatch_metrics R roles s m count hsne hlook hmne,
          getRolesFromMetrics_run R roles m s count]
        refine ⟨_, rfl, ?_⟩
        intro ro hro
        rcases hshow _ ro hro with ⟨c, hc, h1, h2, h3, h4, h5, h6⟩
        refine ⟨c, hc, h1, h2, h3, h4, h5, fun _ => h6, ?_⟩
        intro hf
        exact absurd hf (by simp)
      · rw [gpr_dispatch_fallback R roles s metrics count hsne hlook
          (Bool.not_eq_true _ ▸ hm), unpersonalizedResult_run]
        refine ⟨_, rfl, ?_⟩
        intro ro hro
        rcases hunpers ro hro with ⟨c, hc, h1, h2, h3, h4, h5, h6⟩
        refine ⟨c, hc, h1, h2, h3, h4, h5, ?_, fun _ => h6⟩
        intro ht
        exact absurd ht (by simp)
  · rw [gpr_dispatch_unpersonalized R roles currentRole metrics count
      (Bool.not_eq_true _ ▸ htruthy), unpersonalizedResult_run]
    refine ⟨_, rfl, ?_⟩
    intro ro hro
    rcases hunpers ro hro with ⟨c, hc, h1, h2, h3, h4, h5, h6⟩
    refine ⟨c, hc, h1, h2, h3, h4, h5, ?_, fun _ => h6⟩
    intro ht
    exact absurd ht (by simp)

theorem C8_results_are_copies_witness :
    ∃ res, get_personalized_roles takeOracle demoRoles (some "software engineer")
        none 27 = Except.ok res ∧
      ∀ ro ∈ res.roles, ∃ c ∈ demoRoles,
        ro.name = c.name ∧ ro.technical = c.technical ∧ ro.creative = c.creative ∧
        ro.business = c.business ∧ ro.customer = c.customer ∧
        (res.personalized = true → ro.distance.isSome = true) ∧
        (res.personalized = false → ro.distance = none) :=
  C8_results_are_copies takeOracle takeOracle_valid demoRoles (some "software engineer")
    none 27

/-- C10: an empty current_role is falsy in the `if not current_role`
guard, so the call is literally the unpersonalized random path — the
same computation as with no current role and no metrics — and the
supplied metrics are never consulted; the result is unpersonalized and
carries no current_role key. -/
theorem C10_empty_string_unpersonalized (R : RandomOracle) (roles : List Role)
    (metrics : Option MetricsInput) (count : Nat) :
    get_personalized_roles R roles (some "") metrics count =
      get_personalized_roles R roles none none count ∧
    ∃ res, get_personalized_roles R roles (some "") metrics count = Except.ok res ∧
      res.personalized = false ∧ res.current_role = none := by
  have h1 : get_personalized_roles R roles (some "") metrics count =
      unpersonalizedResult R roles count :=
    gpr_dispatch_unpersonalized R roles (some "") metrics count (by decide)
  have h2 : get_personalized_roles R roles none none count =
      unpersonalizedResult R roles count :=
    gpr_dispatch_unpersonalized R roles none none count rfl
  refine ⟨h1.trans h2.symm, ?_⟩
  rw [h1, unpersonalizedResult_run]
  exact ⟨_, rfl, rfl, rfl⟩


/-! ### Helper lemmas: exact-fraction comparisons -/

theorem fracLE_refl (p : Nat × Nat) : fracLE p p := Nat.le_refl _

theorem fracLE_of_scoreLT {p q : (Nat × Nat) × String} (h : scoreLT p q) :
    fracLE p.1 q.1 := by
  rcases h with h | ⟨h, _⟩
  · exact Nat.le_of_lt h
  · exact Nat.le_of_eq h

theorem fracLE_of_not_scoreLT {p q : (Nat × Nat) × String} (h : ¬ scoreLT p q) :
    fracLE q.1 p.1 := by
  unfold scoreLT at h
  push_neg at h
  exact Nat.le_of_not_lt h.1

theorem fracLE_trans {a b c : Nat × Nat} (hb : 0 < b.2) (h1 : fracLE a b)
    (h2 : fracLE b c) : fracLE a c := by
  unfold fracLE at h1 h2 ⊢
  have h3 : a.1 * c.2 * b.2 ≤ b.1 * c.2 * a.2 := by
    calc a.1 * c.2 * b.2 = a.1 * b.2 * c.2 := by ring
      _ ≤ b.1 * a.2 * c.2 := Nat.mul_le_mul_right c.2 h1
      _ = b.1 * c.2 * a.2 := by ring
  have h4 : b.1 * c.2 * a.2 ≤ c.1 * b.2 * a.2 := Nat.mul_le_mul_right a.2 h2
  have h5 : a.1 * c.2 * b.2 ≤ c.1 * a.2 * b.2 := by
    calc a.1 * c.2 * b.2 ≤ c.1 * b.2 * a.2 := le_trans h3 h4
      _ = c.1 * a.2 * b.2 := by ring
  exact Nat.le_of_mul_le_mul_right h5 hb

theorem fracLE_of_not_fracLE {a b : Nat × Nat} (h : ¬ fracLE b a) : fracLE a b := by
  unfold fracLE at h ⊢
  exact Nat.le_of_lt (Nat.lt_of_not_le h)

/-! ### Helper lemmas: the fuzzy-match maximum scan -/

theorem foldl_nlStep_isSome :
    ∀ (l : List ((Nat × Nat) × String)) (q : (Nat × Nat) × String),
      ∃ p, l.foldl nlStep (some q) = some p
  | [], q => ⟨q, rfl⟩
  | a :: l, q => by
    rw [List.foldl_cons]
    by_cases hqa : scoreLT q a
    · have hs : nlStep (some q) a = some a := by simp [nlStep, hqa]
      rw [hs]
      exact foldl_nlStep_isSome l a
    · have hs : nlStep (some q) a = some q := by simp [nlStep, hqa]
      rw [hs]
      exact foldl_nlStep_isSome l q

theorem nlargest1_acc_spec :
    ∀ (l : List ((Nat × Nat) × String)) (q : (Nat × Nat) × String),
      0 < q.1.2 → (∀ x ∈ l, 0 < x.1.2) →
      ∃ p, l.foldl nlStep (some q) = some p ∧
        (p ∈ l ∨ p = q) ∧ fracLE q.1 p.1 ∧ ∀ x ∈ l, fracLE x.1 p.1
  | [], q, _, _ => ⟨q, rfl, Or.inr rfl, fracLE_refl _, by
      intro x hx
      exact absurd hx (List.not_mem_nil x)⟩
  | a :: l, q, hq, hpos => by
    have ha : 0 < a.1.2 := hpos a (List.mem_cons_self a l)
    have hposl : ∀ x ∈ l, 0 < x.1.2 := fun x hx => hpos x (List.mem_cons_of_mem a hx)
    by_cases hqa : scoreLT q a
    · have hstep : (a :: l).foldl nlStep (some q) = l.foldl nlStep (some a) := by
        rw [List.foldl_cons]
        congr 1
        simp [nlStep, hqa]
      rcases nlargest1_acc_spec l a ha hposl with ⟨p, hp, hmem, hle, hall⟩
      refine ⟨p, hstep ▸ hp, ?_, ?_, ?_⟩
      · rcases hmem with h | h
        · exact Or.inl (List.mem_cons_of_mem a h)
        · exact Or.inl (h ▸ List.mem_cons_self a l)
      · exact fracLE_trans ha (fracLE_of_scoreLT hqa) hle
      · intro x hx
        rcases List.mem_cons.1 hx with he | hx'
        · exact he ▸ hle
        · exact hall x hx'
    · have hstep : (a :: l).foldl nlStep (some q) = l.foldl nlStep (some q) := by
        rw [List.foldl_cons]
        congr 1
        simp [nlStep, hqa]
      rcases nlargest1_acc_spec l q hq hposl with ⟨p, hp, hmem, hle, hall⟩
      refine ⟨p, hstep ▸ hp, ?_, hle, ?_⟩
      · rcases hmem with h | h
        · exact Or.inl (List.mem_cons_of_mem a h)
        · exact Or.inr h
      · intro x hx
        rcases List.mem_cons.1 hx with he | hx'
        · exact he ▸ fracLE_trans hq (fracLE_of_not_scoreLT hqa) hle
        · exact hall x hx'

theorem nlargest1_spec {l : List ((Nat × Nat) × String)} {p : (Nat × Nat) × String}
    (hpos : ∀ x ∈ l, 0 < x.1.2) (h : nlargest1 l = some p) :
    p ∈ l ∧ ∀ x ∈ l, fracLE x.1 p.1 := by
  cases l with
  | nil => cases h
  | cons a l =>
    have hrw : nlargest1 (a :: l) = l.foldl nlStep (some a) := by
      unfold nlargest1
      rw [List.foldl_cons]
      rfl
    rcases nlargest1_acc_spec l a (hpos a (List.mem_cons_self a l))
        (fun x hx => hpos x (List.mem_cons_of_mem a hx)) with ⟨p2, hp2, hmem, hle, hall⟩
    rw [hrw, hp2] at h
    cases h
    constructor
    · rcases hmem with hm | hm
      · exact List.mem_cons_of_mem a hm
      · exact hm ▸ List.mem_cons_self a l
    · intro x hx
      rcases List.mem_cons.1 hx with he | hx'
      · exact he ▸ hle
      · exact hall x hx'

theorem nlargest1_isSome_of_ne_nil {l : List ((Nat × Nat) × String)} (hne : l ≠ []) :
    (nlargest1 l).isSome = true := by
  cases l with
  | nil => exact absurd rfl hne
  | cons a l =>
    have hrw : nlargest1 (a :: l) = l.foldl nlStep (some a) := by
      unfold nlargest1
      rw [List.foldl_cons]
      rfl
    rcases foldl_nlStep_isSome l a with ⟨p, hp⟩
    rw [hrw, hp]
    rfl

theorem foldl_nlStep_mem :
    ∀ (l : List ((Nat × Nat) × String)) (q p : (Nat × Nat) × String),
      l.foldl nlStep (some q) = some p → p ∈ l ∨ p = q
  | [], _, _, h => by
    cases h
    exact Or.inr rfl
  | a :: l, q, p, h => by
    rw [List.foldl_cons] at h
    by_cases hqa : scoreLT q a
    · rw [show nlStep (some q) a = some a from by simp [nlStep, hqa]] at h
      rcases foldl_nlStep_mem l a p h with h2 | h2
      · exact Or.inl (List.mem_cons_of_mem a h2)
      · exact Or.inl (h2 ▸ List.mem_cons_self a l)
    · rw [show nlStep (some q) a = some q from by simp [nlStep, hqa]] at h
      rcases foldl_nlStep_mem l q p h with h2 | h2
      · exact Or.inl (List.mem_cons_of_mem a h2)
      · exact Or.inr h2

theorem nlargest1_mem {l : List ((Nat × Nat) × String)} {p : (Nat × Nat) × String}
    (h : nlargest1 l = some p) : p ∈ l := by
  cases l with
  | nil => cases h
  | cons a l =>
    have hrw : nlargest1 (a :: l) = l.foldl nlStep (some a) := by
      unfold nlargest1
      rw [List.foldl_cons]
      rfl
    rw [hrw] at h
    rcases foldl_nlStep_mem l a p h with h2 | h2
    · exact List.mem_cons_of_mem a h2
    · exact h2 ▸ List.mem_cons_self a l

theorem fuzzyScore_eq_some {cutoff : Nat × Nat} {word x : String}
    {p : (Nat × Nat) × String} (h : fuzzyScore cutoff word x = some p) :
    fracLE cutoff (simFrac x.data word.data) ∧ p = (simFrac x.data word.data, x) := by
  unfold fuzzyScore at h
  by_cases hc : fracLE cutoff (simFrac x.data word.data)
  · rw [if_pos hc] at h
    cases h
    exact ⟨hc, rfl⟩
  · rw [if_neg hc] at h
    cases h

theorem fuzzyScore_of_le {cutoff : Nat × Nat} {word x : String}
    (hc : fracLE cutoff (simFrac x.data word.data)) :
    fuzzyScore cutoff word x = some (simFrac x.data word.data, x) := by
  unfold fuzzyScore
  rw [if_pos hc]

theorem get_close_matches1_isSome_iff (cutoff : Nat × Nat) (word : String)
    (poss : List String) :
    (get_close_matches1 cutoff word poss).isSome = true ↔
      ∃ x ∈ poss, fracLE cutoff (simFrac x.data word.data) := by
  unfold get_close_matches1
  constructor
  · intro h
    rcases Option.isSome_iff_exists.1 h with ⟨m, hm⟩
    rcases Option.map_eq_some'.1 hm with ⟨p, hp, _⟩
    rcases List.mem_filterMap.1 (nlargest1_mem hp) with ⟨x, hx, hscore⟩
    exact ⟨x, hx, (fuzzyScore_eq_some hscore).1⟩
  · intro hex
    rcases hex with ⟨x, hx, hc⟩
    have hmem : (simFrac x.data word.data, x) ∈ poss.filterMap (fuzzyScore cutoff word) :=
      List.mem_filterMap.2 ⟨x, hx, fuzzyScore_of_le hc⟩
    have hne : poss.filterMap (fuzzyScore cutoff word) ≠ [] := List.ne_nil_of_mem hmem
    rcases Option.isSome_iff_exists.1 (nlargest1_isSome_of_ne_nil hne) with ⟨p, hp⟩
    rw [hp]
    rfl

theorem wordlen_pos {word : String} (hw : word ≠ "") : 0 < word.data.length := by
  cases word with
  | mk data =>
    cases data with
    | nil => exact absurd rfl hw
    | cons a l => simp

theorem fuzzy_pool_pos {cutoff : Nat × Nat} {word : String} (hw : word ≠ "")
    (poss : List String) :
    ∀ y ∈ poss.filterMap (fuzzyScore cutoff word), 0 < y.1.2 := by
  intro y hy
  rcases List.mem_filterMap.1 hy with ⟨x, _, hscore⟩
  rcases fuzzyScore_eq_some hscore with ⟨_, rfl⟩
  have hpos := wordlen_pos hw
  simp only [simFrac]
  omega

theorem get_close_matches1_some_spec {cutoff : Nat × Nat} {word : String}
    {poss : List String} {m : String} (hw : word ≠ "") (hcpos : 0 < cutoff.2)
    (h : get_close_matches1 cutoff word poss = some m) :
    m ∈ poss ∧ fracLE cutoff (simFrac m.data word.data) ∧
      ∀ x ∈ poss, fracLE (simFrac x.data word.data) (simFrac m.data word.data) := by
  unfold get_close_matches1 at h
  rcases Option.map_eq_some'.1 h with ⟨p, hp, hpm⟩
  have hspec := nlargest1_spec (fuzzy_pool_pos hw poss) hp
  rcases List.mem_filterMap.1 hspec.1 with ⟨x, hx, hscore⟩
  rcases fuzzyScore_eq_some hscore with ⟨hc, hpx⟩
  have hmx : m = x := by
    rw [← hpm, hpx]
  have hp1 : p.1 = simFrac m.data word.data := by
    rw [hpx, hmx]
  have hcm : fracLE cutoff (simFrac m.data word.data) := by
    rw [hmx]
    exact hc
  refine ⟨hmx ▸ hx, hcm, ?_⟩
  intro y hy
  by_cases hyc : fracLE cutoff (simFrac y.data word.data)
  · have hymem : (simFrac y.data word.data, y) ∈ poss.filterMap (fuzzyScore cutoff word) :=
      List.mem_filterMap.2 ⟨y, hy, fuzzyScore_of_le hyc⟩
    have hle := hspec.2 _ hymem
    rw [← hp1]
    exact hle
  · exact fracLE_trans hcpos (fracLE_of_not_fracLE hyc) hcm

set_option maxRecDepth 100000 in
/-- C9: fuzzy resolution at cutoff 0.85 (the exact fraction 17/20,
with which the float comparisons of `get_close_matches` agree at every
ratio the catalog names can produce) succeeds exactly when some
candidate clears the cutoff, returns a best-scoring candidate, and on
a catalog containing "Software Engineer" resolves the
one-character-off input "Softwares Engineer" to that canonical entry
while "Plumber" does not resolve. -/
theorem C9_fuzzy_resolution :
    (∀ (word : String) (poss : List String),
      (get_close_matches1 FUZZY_CUTOFF word poss).isSome = true ↔
        ∃ x ∈ poss, fracLE FUZZY_CUTOFF (simFrac x.data word.data)) ∧
    (∀ (word : String) (poss : List String) (m : String), word ≠ "" →
      get_close_matches1 FUZZY_CUTOFF word poss = some m →
        m ∈ poss ∧ fracLE FUZZY_CUTOFF (simFrac m.data word.data) ∧
        ∀ x ∈ poss, fracLE (simFrac x.data word.data) (simFrac m.data word.data)) ∧
    resolveFuzzy demoRoles "Softwares Engineer" = some "Software Engineer" ∧
    resolveFuzzy demoRoles "Plumber" = none :=
  ⟨fun word poss => get_close_matches1_isSome_iff FUZZY_CUTOFF word poss,
    fun _ _ _ hw h => get_close_matches1_some_spec hw (by decide) h,
    by decide, by decide⟩

set_option maxRecDepth 100000 in
theorem C9_fuzzy_resolution_witness :
    ("softwares engineer" ≠ "" ∧
      get_close_matches1 FUZZY_CUTOFF "softwares engineer" ["software engineer"] =
        some "software engineer") ∧
    ("software engineer" ∈ ["software engineer"] ∧
      fracLE FUZZY_CUTOFF (simFrac "software engineer".data "softwares engineer".data) ∧
      ∀ x ∈ ["software engineer"],
        fracLE (simFrac x.data "softwares engineer".data)
          (simFrac "software engineer".data "softwares engineer".data)) :=
  ⟨⟨by decide, by decide⟩,
    C9_fuzzy_resolution.2.1 "softwares engineer" ["software engineer"]
      "software engineer" (by decide) (by decide)⟩
